import Mathlib

/-!
Verification of a memory-constrained backward bidirectional enumerator.

Shallow embedding of the repository's four Python source files:

* `enum2.py` — the dynamic-programming oracle `T`, `option_list`,
  `argmin_l` / `argmin_r` and `optimal_x_l` / `optimal_x_r`;
* `kcomplexity.py` — `RecursiveCheckpointEnumerator`;
* `logncomplexity.py` — `HierarchicalBinaryTree` and `ProperLogNEnumerator`;
* `ncomplexity.py` — `NElementBiDiWrapper` over `CountingIterator`.

Python's `float('inf')` is modelled by `⊤ : ℕ∞`; Python exceptions
(IndexError, ValueError, RecursionError) are modelled by `Option`-valued
functions returning `none`.
-/

/-! ## Oracle (`enum2.py`)

`T(n, k)` from `enum2.py`:

    def T(n, k):
        if n == 0: return 0
        if k == 0: return float('inf')
        return min(option_list(n, k))

    def option_list(n,k):
        return [x + T(n - x , k - 1) + T(x -1, k) for x in range(1,n+1)]

The list entry for `x = i + 1` (with `i` ranging over `range n`) is
`(i+1) + T (n-(i+1)) (k-1) + T i k`.  `min` of a non-empty list is its
least element; we realise it as `List.foldr min ⊤`, which agrees with the
least element because `⊤` is the neutral element of `min`.
-/

def T : Nat → Nat → ℕ∞
  | 0, _ => 0
  | _ + 1, 0 => ⊤
  | n + 1, k + 1 =>
    (((List.range (n + 1)).attach.map
      (fun x => ((x.1 + 1 : ℕ) : ℕ∞) + T (n - x.1) k + T x.1 (k + 1)))).foldr min ⊤
termination_by n k => (k, n)
decreasing_by
  · exact Prod.Lex.left _ _ (Nat.lt_succ_self k)
  · exact Prod.Lex.right _ (List.mem_range.mp x.2)

/-- `option_list(n, k)` from `enum2.py`: the candidate costs for the split
points `x = 1, …, n` (index `i` of the list holds the cost of `x = i+1`). -/
def option_list (n k : Nat) : List ℕ∞ :=
  (List.range n).map (fun i => ((i + 1 : ℕ) : ℕ∞) + T (n - (i + 1)) (k - 1) + T i k)

/-- `argmin_l(l)` from `enum2.py`: scan the list, replacing the running
minimum when `l[i] - v < 0`.  On IEEE floats `l[i] - v < 0` holds exactly
when `l[i] < v` in the extended order (`inf - inf` is `nan`, which is not
`< 0`, and `inf < inf` is likewise false), so the update test is `<`. -/
def argminLStep (l : List ℕ∞) : Nat × ℕ∞ → Nat → Nat × ℕ∞ :=
  fun pv i => if l.getD i 0 < pv.2 then (i, l.getD i 0) else pv

def argmin_l (l : List ℕ∞) : Nat :=
  ((List.range l.length).foldl (argminLStep l) (0, l.getD 0 0)).1

/-- `argmin_r(l)` from `enum2.py`: update when `l[i] - v <= 0`.  On IEEE
floats this is false when `l[i]` is `inf` (then `l[i] - v` is `inf` or
`nan`), and otherwise agrees with `l[i] ≤ v`; hence the update test is
`l[i] ≤ v ∧ l[i] ≠ ⊤`. -/
def argminRStep (l : List ℕ∞) : Nat × ℕ∞ → Nat → Nat × ℕ∞ :=
  fun pv i => if l.getD i 0 ≤ pv.2 ∧ l.getD i 0 ≠ ⊤ then (i, l.getD i 0) else pv

def argmin_r (l : List ℕ∞) : Nat :=
  ((List.range l.length).foldl (argminRStep l) (0, l.getD 0 0)).1

/-- `optimal_x_l(n,k)` from `enum2.py`: `None` when `n = 0` or `k = 0`,
otherwise the left-most argmin index of `option_list(n,k)`. -/
def optimal_x_l (n k : Nat) : Option Nat :=
  if n = 0 then none
  else if k = 0 then none
  else some (argmin_l (option_list n k))

/-- `optimal_x_r(n,k)` from `enum2.py`: `None` when `n = 0` or `k = 0`,
otherwise the right-most argmin index of `option_list(n,k)`. -/
def optimal_x_r (n k : Nat) : Option Nat :=
  if n = 0 then none
  else if k = 0 then none
  else some (argmin_r (option_list n k))

/-- `T` on arbitrary (possibly negative) integer inputs, as the Python
source executes it.  `none` models an exception: `min()` of the empty
option list (a `ValueError`, reached when `n < 0` and `k ≠ 0`) or
exhaustion of the recursion (a `RecursionError`, reached when `k < 0` and
`n > 0`, here fuel running out).  `fuel ≥ n + k + 1` is enough on valid
inputs. -/
def TInt : Nat → Int → Int → Option ℕ∞
  | 0, _, _ => none
  | fuel + 1, n, k =>
    if n = 0 then some 0
    else if k = 0 then some ⊤
    else
      match (List.range n.toNat).mapM
        (fun i => do
          let a ← TInt fuel (n - ((i : Int) + 1)) (k - 1)
          let b ← TInt fuel (i : Int) k
          pure (((i + 1 : ℕ) : ℕ∞) + a + b)) with
      | none => none
      | some [] => none
      | some l => some (l.foldr min ⊤)

/-! ## Recursive hierarchical enumerator (`kcomplexity.py`)

Python list indexing supports negative indices (counting from the end) and
raises `IndexError` out of range; `pyGet` models it with `Option`. -/

def pyGet {α : Type} (l : List α) (i : Int) : Option α :=
  if 0 ≤ i then l.get? i.toNat
  else if (-i).toNat ≤ l.length then l.get? (l.length - (-i).toNat)
  else none

/-- Python `range(a, b)` over integers (possibly negative bounds). -/
def intRange (a b : Int) : List Int :=
  (List.range (b - a).toNat).map (fun j : Nat => a + (j : Int))

/-- `RecursiveCheckpointEnumerator._binomial`: multiplicative formula with
the `min(k, n-k)` symmetry optimisation; `0` out of domain. -/
def binomial (n k : Nat) : Nat :=
  if k > n then 0
  else if k = 0 ∨ k = n then 1
  else (List.range (min k (n - k))).foldl (fun r i => r * (n - i) / (i + 1)) 1

/-- The `while val < limit` loop of `_compute_n_sequence`: append
`binomial (m+i-1) m` for `i = 1, 2, …` until the appended value reaches
`limit`.  The values strictly increase by at least one per step, so
`limit.toNat + 1` fuel is enough for the loop to end on its own test. -/
def seqLoop (m : Nat) (limit : Int) : Nat → Nat → Nat → List Nat
  | 0, _, _ => []
  | fuel + 1, i, val =>
    if (val : Int) < limit then
      binomial (m + i - 1) m :: seqLoop m limit fuel (i + 1) (binomial (m + i - 1) m)
    else []

/-- The `__init__` loop building `n_sequences[k-m]` for `m = 0, …, k-1`,
so entry `j` of the result is the level-`(k-j)` sequence.  For `m < k` the
span limit is `prev[len-1] - prev[len-2] - 1` computed on the previously
built sequence, with Python negative-index wrap-around and `IndexError`
(`none`) on the empty list. -/
def buildSeqs (n k : Nat) : Option (List (List Nat)) :=
  (List.range k).foldlM
    (fun seqs j =>
      let m := k - j
      let limit? : Option Int :=
        if m = k then some (n : Int)
        else
          match seqs.getLast? with
          | none => none
          | some prev =>
            match pyGet prev ((prev.length : Int) - 1), pyGet prev ((prev.length : Int) - 2) with
            | some a, some b => some ((a : Int) - (b : Int) - 1)
            | _, _ => none
      match limit? with
      | none => none
      | some limit => some (seqs ++ [seqLoop m limit (limit.toNat + 1) 1 0]))
    []

structure RCEState where
  n : Nat
  k : Nat
  pos : Nat
  ops : Int
  seqs : List (List Nat)
  idxs : List Int
  deriving DecidableEq, Repr

def initRCE (n k : Nat) : Option RCEState :=
  (buildSeqs n k).map (fun seqs => ⟨n, k, 0, 0, seqs, List.replicate k 0⟩)

/-- `_get_checkpoint_position`: `Σ_j n_sequences[k-j][idx_j]`. -/
def getCheckpointPosition (s : RCEState) : Option Int :=
  (List.range s.k).foldlM
    (fun total j =>
      match pyGet (s.seqs.getD j []) (s.idxs.getD j 0) with
      | none => none
      | some v => some (total + (v : Int)))
    0

/-- The index-search loop of `_update_checkpoints`:
`for i in range(start, len(seq)+1): if seq[i] <= pos_at_level: idx = i else: break`
with `idx` initialised to `0`.  Reaching `i = len(seq)` (no earlier break)
raises `IndexError` (`none`). -/
def searchIdxLoop (seq : List Nat) (pal : Int) : List Int → Int → Option Int
  | [], idx => some idx
  | i :: rest, idx =>
    match pyGet seq i with
    | none => none
    | some v => if (v : Int) ≤ pal then searchIdxLoop seq pal rest i else some idx

def searchIdx (seq : List Nat) (start pal : Int) : Option Int :=
  searchIdxLoop seq pal (intRange start ((seq.length : Int) + 1)) 0

/-- The `lower_anchor` loop of the cost block in `_update_checkpoints`,
run over the partially-updated `checkpoint_indices`. -/
def lowerAnchor (seqs : List (List Nat)) (idxs : List Int) (k : Nat) (sIdxVal : Nat) :
    Option Nat :=
  (List.range k).foldlM
    (fun anchor jj =>
      match pyGet (seqs.getD jj []) (idxs.getD jj 0) with
      | none => none
      | some candidate =>
        if candidate < sIdxVal ∧ anchor < candidate then some candidate else some anchor)
    0

/-- `_update_checkpoints`: re-derive every slot index top-down, charging
`seq[idx] - lower_anchor` when a slot's index changes, then subtract the
slot value from `pos_at_level`. -/
def updateCheckpoints (s : RCEState) : Option RCEState := do
  let r ← (List.range s.k).foldlM
    (fun (st : Int × List Int × Int) j => do
      let (pal, idxs, ops) := st
      let seq := s.seqs.getD j []
      let cur := idxs.getD j 0
      let start : Int := if cur = 0 then 0 else cur - 1
      let idx ← searchIdx seq start pal
      let ops ←
        if cur ≠ idx then do
          let v ← pyGet seq idx
          let anchor ← lowerAnchor s.seqs idxs s.k v
          pure (ops + ((v : Int) - (anchor : Int)))
        else pure ops
      let idxs := idxs.set j idx
      let pal ←
        if idx < (seq.length : Int) then do
          let w ← pyGet seq idx
          pure (pal - (w : Int))
        else pure pal
      pure (pal, idxs, ops))
    ((s.pos : Int), s.idxs, s.ops)
  pure { s with idxs := r.2.1, ops := r.2.2 }

/-- `RecursiveCheckpointEnumerator.next`. -/
def rceNext (s : RCEState) : Option (Bool × RCEState) :=
  if s.pos ≥ s.n then some (false, s)
  else
    match updateCheckpoints { s with pos := s.pos + 1, ops := s.ops + 1 } with
    | none => none
    | some s' => some (true, s')

/-- The deepest-decrementable-slot scan of `prev`:
`for j in range(k-1, -1, -1): if idxs[j] > 0: … break`. -/
def findDecrementable (idxs : List Int) (k : Nat) : Option Nat :=
  (List.range k).reverse.find? (fun j => 0 < idxs.getD j 0)

/-- `RecursiveCheckpointEnumerator.prev`. -/
def rcePrev (s : RCEState) : Option (Bool × RCEState) :=
  if s.pos ≤ 0 then some (false, s)
  else
    let target := s.pos - 1
    match findDecrementable s.idxs s.k with
    | none => some (true, { s with pos := 0, idxs := List.replicate s.k 0 })
    | some j =>
      let prevIdxs0 := s.idxs.set j (s.idxs.getD j 0 - 1)
      let prevIdxs := (List.range s.k).foldl
        (fun acc jj =>
          if j + 1 ≤ jj then acc.set jj (((s.seqs.getD jj []).length : Int) - 1) else acc)
        prevIdxs0
      match (List.range s.k).foldlM
        (fun (pp : Int) jj =>
          match pyGet (s.seqs.getD jj []) (prevIdxs.getD jj 0) with
          | none => none
          | some v => some (pp + (v : Int)))
        0 with
      | none => none
      | some prevPos =>
        let cost : Int := if (target : Int) ≥ prevPos then (target : Int) - prevPos else 0
        some (true, { s with pos := target, idxs := prevIdxs, ops := s.ops + cost })

/-- `while self.next(): pass`, with fuel (`n + 1` steps suffice since each
successful `next` increases `pos`). -/
def rceForward : Nat → RCEState → Option RCEState
  | 0, s => some s
  | fuel + 1, s =>
    match rceNext s with
    | none => none
    | some (false, s') => some s'
    | some (true, s') => rceForward fuel s'

/-- `while self.pos > 0: self.prev()`, with fuel. -/
def rceBackward : Nat → RCEState → Option RCEState
  | 0, s => some s
  | fuel + 1, s =>
    if s.pos > 0 then
      match rcePrev s with
      | none => none
      | some (_, s') => rceBackward fuel s'
    else some s

/-- `RecursiveCheckpointEnumerator.run_full_cycle`. -/
def rceRunFullCycle (s : RCEState) : Option RCEState :=
  match rceForward (s.n + 1) s with
  | none => none
  | some s' => rceBackward (s'.pos + 1) s'

/-- `p` consecutive `next()` calls, all required to return `True`. -/
def rceNextTrue (s : RCEState) : Option RCEState :=
  match rceNext s with
  | some (true, s') => some s'
  | _ => none

def rceNextTrueN : Nat → RCEState → Option RCEState
  | 0, s => some s
  | p + 1, s => (rceNextTrueN p s).bind rceNextTrue

/-! ## Binary-tree enumerator (`logncomplexity.py`) -/

/-- The powers-of-two loop of `_build_levels`:
`p = 1; while p <= n: level_0.append(p); p *= 2`, with fuel (`n + 1`
suffices since `p` at least doubles). -/
def powersAux : Nat → Nat → Nat → List Nat
  | 0, _, _ => []
  | fuel + 1, n, p => if 0 < p ∧ p ≤ n then p :: powersAux fuel n (2 * p) else []

def powersFrom (n p : Nat) : List Nat := powersAux (n + 1) n p

/-- Insert into an ascending duplicate-free list, keeping it ascending and
duplicate-free. -/
def insertSorted (x : Nat) : List Nat → List Nat
  | [] => [x]
  | y :: ys =>
    if x < y then x :: y :: ys
    else if x = y then y :: ys
    else y :: insertSorted x ys

/-- Python `sorted(set(l))`: the ascending list of the distinct values of
`l` (realised by insertion sort with deduplication, which produces exactly
that list). -/
def sortedSet (l : List Nat) : List Nat := l.foldr insertSorted []

/-- The midpoint loop of `_build_levels`: repeatedly insert midpoints of
adjacent positions until no new midpoint appears.  Each pass adds at least
one position in `[1, n]`, so `n` fuel is enough for the loop to end on its
own test. -/
def buildLoop : Nat → List (List Nat) → List Nat → List (List Nat)
  | 0, levels, _ => levels
  | fuel + 1, levels, current =>
    if current.length ≤ 1 then levels
    else
      let nextLevel := (List.range (current.length - 1)).filterMap
        (fun i =>
          let low := current.getD i 0
          let high := current.getD (i + 1) 0
          let mid := (low + high) / 2
          if mid ≠ low ∧ mid ≠ high then some mid else none)
      if nextLevel = [] then levels
      else buildLoop fuel (levels ++ [sortedSet nextLevel]) (sortedSet (current ++ nextLevel))

/-- `HierarchicalBinaryTree._build_levels`.  `level_0[-1]` on the empty
list (the `n = 0` case) raises `IndexError`, modelled by `none`. -/
def buildLevels (n : Nat) : Option (List (List Nat)) :=
  let level0 := powersFrom n 1
  match level0.getLast? with
  | none => none
  | some last =>
    let level0' := if last ≠ n then level0 ++ [n] else level0
    some (buildLoop n [sortedSet level0'] level0')

structure PLNState where
  n : Nat
  k : Nat
  pos : Nat
  ops : Int
  checkpoints : List Nat
  currentDepth : Nat
  direction : Bool
  levels : List (List Nat)
  deriving DecidableEq, Repr

/-- `sorted(set(pos for d in self.tree.levels.values() for pos in d))`. -/
def allPositions (levels : List (List Nat)) : List Nat := sortedSet levels.flatten

/-- Append to a `deque(maxlen=k)`: the oldest (left-most) entries are
dropped when the deque is full. -/
def dequeAppend (k : Nat) (l : List Nat) (x : Nat) : List Nat :=
  let l' := l ++ [x]
  l'.drop (l'.length - k)

/-- `ProperLogNEnumerator.__init__` (with explicit `k`); the checkpoint
deque starts as `deque([0], maxlen=k)`. -/
def initPLN (n k : Nat) : Option PLNState :=
  (buildLevels n).map
    (fun levels => ⟨n, k, 0, 0, [0].drop (1 - k), 0, true, levels⟩)

/-- `ProperLogNEnumerator.next`. -/
def plnNext (s : PLNState) : Bool × PLNState :=
  if s.pos ≥ s.n then (false, s)
  else
    let pos := s.pos + 1
    let all := allPositions s.levels
    let uptoHere := all.filter (fun p => p ≤ pos)
    let checkpoints :=
      if uptoHere.length > s.checkpoints.length then
        let newCp := uptoHere.getLastD pos
        if newCp ∉ s.checkpoints then dequeAppend s.k s.checkpoints newCp
        else s.checkpoints
      else s.checkpoints
    (true, { s with pos := pos, ops := s.ops + 1, direction := true, checkpoints := checkpoints })

/-- `ProperLogNEnumerator.prev`.  In the eviction branch the deque is
necessarily non-empty (its length strictly exceeds a list length), so the
`checkpoints[-1]` read cannot fail. -/
def plnPrev (s : PLNState) : Bool × PLNState :=
  if s.pos ≤ 0 then (false, s)
  else
    let all := allPositions s.levels
    let target := s.pos - 1
    let uptoTarget := all.filter (fun p => p ≤ target)
    if uptoTarget.length < s.checkpoints.length then
      let removed := s.checkpoints.getLastD 0
      (true, { s with pos := target,
                      ops := s.ops + ((removed : Int) - (target : Int)),
                      checkpoints := s.checkpoints.dropLast,
                      direction := false })
    else
      (true, { s with pos := target, ops := s.ops + 1, direction := false })

/-! ## Baseline stack wrapper (`ncomplexity.py`)

`NElementBiDiWrapper` over the `CountingIterator` of its own test harness
(whose `prev` also does `pos += 1`, as written in the source); `opCount`
models the class-level `CountingIterator.operation_count`. -/

structure WrapperState where
  n : Nat
  currentPos : Int
  savedPositions : List Int
  distance : Int
  opCount : Int
  deriving DecidableEq, Repr

def wrapperNext (w : WrapperState) : WrapperState :=
  { w with distance := w.distance + 1,
           savedPositions := w.savedPositions ++ [w.currentPos],
           currentPos := w.currentPos + 1,
           opCount := w.opCount + 1 }

/-- `NElementBiDiWrapper.prev` raises `ValueError` (`none`) when there is
no saved position. -/
def wrapperPrev (w : WrapperState) : Option WrapperState :=
  if w.savedPositions.length = 0 then none
  else
    some { w with distance := w.distance - 1,
                  savedPositions := w.savedPositions.dropLast,
                  currentPos := w.currentPos + 1,
                  opCount := w.opCount + 1 }

/-! ## Theorems -/

theorem T_zero (k : Nat) : T 0 k = 0 := by
  cases k <;> simp [T]

theorem T_succ_zero (n : Nat) : T (n + 1) 0 = ⊤ := by
  simp [T]

theorem T_pos_zero (n : Nat) (hn : 1 ≤ n) : T n 0 = ⊤ := by
  cases n with
  | zero => omega
  | succ m => exact T_succ_zero m

theorem T_succ_succ (n k : Nat) :
    T (n + 1) (k + 1) = (option_list (n + 1) (k + 1)).foldr min ⊤ := by
  rw [T, option_list]
  congr 1
  rw [List.attach_map_val (l := List.range (n + 1))
    (f := fun i => ((i + 1 : ℕ) : ℕ∞) + T (n - i) k + T i (k + 1))]
  apply List.map_congr_left
  intro i _
  simp [Nat.succ_sub_succ]

theorem T_eq_min (n k : Nat) (hn : 1 ≤ n) (hk : 1 ≤ k) :
    T n k = (option_list n k).foldr min ⊤ := by
  obtain ⟨n', rfl⟩ := Nat.exists_eq_add_of_le hn
  obtain ⟨k', rfl⟩ := Nat.exists_eq_add_of_le hk
  simpa [Nat.add_comm] using T_succ_succ n' k'

/-! ### Generic facts about `List.foldr min ⊤` on a linear order -/

theorem foldr_min_le {α : Type} [LinearOrder α] [OrderTop α]
    {l : List α} {a : α} (h : a ∈ l) : l.foldr min ⊤ ≤ a := by
  induction l with
  | nil => cases h
  | cons b l ih =>
    rcases List.mem_cons.mp h with rfl | h
    · exact min_le_left _ _
    · exact le_trans (min_le_right _ _) (ih h)

theorem le_foldr_min {α : Type} [LinearOrder α] [OrderTop α]
    {l : List α} {b : α} (h : ∀ a ∈ l, b ≤ a) : b ≤ l.foldr min ⊤ := by
  induction l with
  | nil => exact le_top
  | cons c l ih =>
    exact le_min (h c (List.mem_cons_self c l)) (ih (fun a ha => h a (List.mem_cons_of_mem c ha)))

theorem foldr_min_mem {α : Type} [LinearOrder α] [OrderTop α]
    {l : List α} (h : l ≠ []) : l.foldr min ⊤ ∈ l := by
  induction l with
  | nil => exact absurd rfl h
  | cons b l ih =>
    cases l with
    | nil => simp
    | cons c l =>
      rcases min_cases b ((c :: l).foldr min ⊤) with ⟨h1, _⟩ | ⟨h1, _⟩
      · simp only [List.foldr_cons] at h1 ⊢
        rw [h1]; exact List.mem_cons_self _ _
      · simp only [List.foldr_cons] at h1 ⊢
        rw [h1]; exact List.mem_cons_of_mem _ (ih (by simp))

/-! ### The option list, elementwise -/

theorem option_list_length (n k : Nat) : (option_list n k).length = n := by
  simp [option_list]

theorem option_list_get (n k i : Nat) (hi : i < n) :
    (option_list n k).getD i 0 = ((i + 1 : ℕ) : ℕ∞) + T (n - (i + 1)) (k - 1) + T i k := by
  rw [option_list, List.getD_eq_getElem?_getD]
  simp [List.getElem?_map, List.getElem?_range hi]

theorem mem_option_list (n k x : Nat) (hx1 : 1 ≤ x) (hxn : x ≤ n) :
    ((x : ℕ) : ℕ∞) + T (n - x) (k - 1) + T (x - 1) k ∈ option_list n k := by
  rw [option_list]
  refine List.mem_map.mpr ⟨x - 1, List.mem_range.mpr ?_, ?_⟩
  · omega
  · have hx : x - 1 + 1 = x := by omega
    rw [hx]

theorem option_list_entry_mem (n k : Nat) {v : ℕ∞} (h : v ∈ option_list n k) :
    ∃ x, 1 ≤ x ∧ x ≤ n ∧ v = ((x : ℕ) : ℕ∞) + T (n - x) (k - 1) + T (x - 1) k := by
  rw [option_list] at h
  obtain ⟨i, hi, rfl⟩ := List.mem_map.mp h
  have hi' := List.mem_range.mp hi
  exact ⟨i + 1, by omega, by omega, by simp⟩

theorem T_le_option (n k x : Nat) (hx1 : 1 ≤ x) (hxn : x ≤ n) (hk : 1 ≤ k) :
    T n k ≤ ((x : ℕ) : ℕ∞) + T (n - x) (k - 1) + T (x - 1) k := by
  rw [T_eq_min n k (le_trans hx1 hxn) hk]
  exact foldr_min_le (mem_option_list n k x hx1 hxn)

theorem T_attained (n k : Nat) (hn : 1 ≤ n) (hk : 1 ≤ k) :
    ∃ x, 1 ≤ x ∧ x ≤ n ∧ T n k = ((x : ℕ) : ℕ∞) + T (n - x) (k - 1) + T (x - 1) k := by
  have hne : option_list n k ≠ [] := by
    intro h
    have := option_list_length n k
    rw [h] at this
    simp at this
    omega
  have hmem := foldr_min_mem hne
  obtain ⟨x, hx1, hxn, hv⟩ := option_list_entry_mem n k hmem
  exact ⟨x, hx1, hxn, by rw [T_eq_min n k hn hk, hv]⟩

/-! ### Finiteness and the closed form for `k = 1` -/

theorem T_ne_top (n k : Nat) (hk : 1 ≤ k) : T n k ≠ ⊤ := by
  induction n with
  | zero => rw [T_zero]; exact (by simp : (0 : ℕ∞) ≠ ⊤)
  | succ n ih =>
    have hle := T_le_option (n + 1) k (n + 1) (by omega) (le_refl _) hk
    rw [Nat.sub_self, Nat.add_sub_cancel, T_zero] at hle
    intro htop
    rw [htop] at hle
    have : ((n + 1 : ℕ) : ℕ∞) + 0 + T n k ≠ ⊤ := by
      rw [add_zero]
      exact WithTop.add_ne_top.mpr ⟨WithTop.natCast_ne_top _, ih⟩
    exact this (top_le_iff.mp (by simpa using hle))

theorem T_n_one (n : Nat) : T n 1 = ((n * (n + 1) / 2 : ℕ) : ℕ∞) := by
  induction n with
  | zero => simpa using T_zero 1
  | succ n ih =>
    have hval : ((n + 1 : ℕ) : ℕ∞) + T (n + 1 - (n + 1)) 0 + T n 1 ∈ option_list (n + 1) 1 :=
      mem_option_list (n + 1) 1 (n + 1) (by omega) (le_refl _)
    have hmin : T (n + 1) 1 = ((n + 1 : ℕ) : ℕ∞) + T (n + 1 - (n + 1)) 0 + T n 1 := by
      rw [T_eq_min (n + 1) 1 (by omega) (le_refl _)]
      refine le_antisymm (foldr_min_le hval) (le_foldr_min ?_)
      intro a ha
      obtain ⟨x, hx1, hxn, rfl⟩ := option_list_entry_mem (n + 1) 1 ha
      rcases Nat.lt_or_ge x (n + 1) with hlt | hge
      · have : T (n + 1 - x) 0 = ⊤ := T_pos_zero _ (by omega)
        rw [this]
        simp
      · have hx : x = n + 1 := by omega
        subst hx
        simp [Nat.sub_self, T_zero]
    rw [hmin, Nat.sub_self, T_zero, add_zero, ih, ← Nat.cast_add]
    congr 1
    have h1 : 2 ∣ n * (n + 1) := (Nat.even_mul_succ_self n).two_dvd
    have h2 : (n + 1) * (n + 1 + 1) = n * (n + 1) + 2 * (n + 1) := by ring
    omega

/-! ### Monotonicity of the oracle -/

theorem T_mono_k : ∀ n k, T n (k + 1) ≤ T n k := by
  intro n
  induction n using Nat.strong_induction_on with
  | _ n ih =>
    intro k
    cases n with
    | zero => rw [T_zero, T_zero]
    | succ n =>
      cases k with
      | zero => rw [T_succ_zero]; exact le_top
      | succ k =>
        obtain ⟨x, hx1, hxn, hx⟩ := T_attained (n + 1) (k + 1) (by omega) (by omega)
        have h1 : T (n + 1 - x) (k + 1) ≤ T (n + 1 - x) k := by
          have := ih (n + 1 - x) (by omega) k
          simpa using this
        have h2 : T (x - 1) (k + 2) ≤ T (x - 1) (k + 1) := ih (x - 1) (by omega) (k + 1)
        calc T (n + 1) (k + 2)
            ≤ ((x : ℕ) : ℕ∞) + T (n + 1 - x) (k + 1) + T (x - 1) (k + 2) := by
              simpa using T_le_option (n + 1) (k + 2) x hx1 hxn (by omega)
          _ ≤ ((x : ℕ) : ℕ∞) + T (n + 1 - x) k + T (x - 1) (k + 1) :=
              add_le_add (add_le_add (le_refl _) h1) h2
          _ = T (n + 1) (k + 1) := by rw [hx]; simp

theorem T_mono_n : ∀ n k, T n k ≤ T (n + 1) k := by
  intro n
  induction n using Nat.strong_induction_on with
  | _ n ih =>
    intro k
    cases k with
    | zero =>
      rw [T_succ_zero]
      exact le_top
    | succ k =>
      obtain ⟨x, hx1, hxn, hx⟩ := T_attained (n + 1) (k + 1) (by omega) (by omega)
      rcases Nat.lt_or_ge x (n + 1) with hlt | hge
      · have hxle : x ≤ n := by omega
        have hn1 : 1 ≤ n := by omega
        have hstep : T (n - x) k ≤ T (n + 1 - x) k := by
          have := ih (n - x) (by omega) k
          have heq : n - x + 1 = n + 1 - x := by omega
          rwa [heq] at this
        calc T n (k + 1)
            ≤ ((x : ℕ) : ℕ∞) + T (n - x) k + T (x - 1) (k + 1) := by
              simpa using T_le_option n (k + 1) x hx1 hxle (by omega)
          _ ≤ ((x : ℕ) : ℕ∞) + T (n + 1 - x) k + T (x - 1) (k + 1) :=
              add_le_add (add_le_add (le_refl _) hstep) (le_refl _)
          _ = T (n + 1) (k + 1) := by rw [hx]; simp
      · have hx' : x = n + 1 := by omega
        subst hx'
        rw [hx, Nat.sub_self, T_zero, add_zero]
        simp

/-! ### The argmin loops -/

theorem argminL_loop_inv (l : List ℕ∞) (hl : l ≠ []) :
    ∀ m, m ≤ l.length →
      ((List.range m).foldl (argminLStep l) (0, l.getD 0 0)).1 < l.length ∧
      ((List.range m).foldl (argminLStep l) (0, l.getD 0 0)).2 =
        l.getD ((List.range m).foldl (argminLStep l) (0, l.getD 0 0)).1 0 ∧
      (∀ j < m, ((List.range m).foldl (argminLStep l) (0, l.getD 0 0)).2 ≤ l.getD j 0) ∧
      (∀ j < ((List.range m).foldl (argminLStep l) (0, l.getD 0 0)).1,
        ((List.range m).foldl (argminLStep l) (0, l.getD 0 0)).2 < l.getD j 0) := by
  intro m
  induction m with
  | zero =>
    intro _
    refine ⟨List.length_pos.mpr hl, by simp, ?_, ?_⟩ <;> intro j hj <;> simp at hj
  | succ m ih =>
    intro hm
    obtain ⟨ih1, ih2, ih3, ih4⟩ := ih (by omega)
    rw [List.range_succ, List.foldl_append, List.foldl_cons, List.foldl_nil]
    set st := (List.range m).foldl (argminLStep l) (0, l.getD 0 0) with hst
    rw [argminLStep]
    by_cases hcond : l.getD m 0 < st.2
    · rw [if_pos hcond]
      refine ⟨by omega, rfl, ?_, ?_⟩
      · intro j hj
        rcases Nat.lt_or_ge j m with hjm | hjm
        · exact le_of_lt (lt_of_lt_of_le hcond (ih3 j hjm))
        · have : j = m := by omega
          subst this; exact le_refl _
      · intro j hj
        exact lt_of_lt_of_le hcond (ih3 j hj)
    · rw [if_neg hcond]
      refine ⟨ih1, ih2, ?_, ih4⟩
      intro j hj
      rcases Nat.lt_or_ge j m with hjm | hjm
      · exact ih3 j hjm
      · have : j = m := by omega
        subst this; exact not_lt.mp hcond

theorem argmin_l_spec (l : List ℕ∞) (hl : l ≠ []) :
    argmin_l l < l.length ∧
    (∀ j < l.length, l.getD (argmin_l l) 0 ≤ l.getD j 0) ∧
    (∀ j < argmin_l l, l.getD (argmin_l l) 0 < l.getD j 0) := by
  obtain ⟨h1, h2, h3, h4⟩ := argminL_loop_inv l hl l.length (le_refl _)
  rw [argmin_l]
  rw [h2] at h3 h4
  exact ⟨h1, h3, h4⟩

theorem argminR_loop_inv (l : List ℕ∞) (hl : l ≠ []) :
    ∀ m, m ≤ l.length →
      (((List.range m).foldl (argminRStep l) (0, l.getD 0 0)).2 = ⊤ ∧
        ((List.range m).foldl (argminRStep l) (0, l.getD 0 0)).1 = 0 ∧
        ∀ j < m, l.getD j 0 = ⊤) ∨
      (((List.range m).foldl (argminRStep l) (0, l.getD 0 0)).2 ≠ ⊤ ∧
        ((List.range m).foldl (argminRStep l) (0, l.getD 0 0)).1 < l.length ∧
        ((List.range m).foldl (argminRStep l) (0, l.getD 0 0)).2 =
          l.getD ((List.range m).foldl (argminRStep l) (0, l.getD 0 0)).1 0 ∧
        (∀ j < m, ((List.range m).foldl (argminRStep l) (0, l.getD 0 0)).2 ≤ l.getD j 0) ∧
        (∀ j, ((List.range m).foldl (argminRStep l) (0, l.getD 0 0)).1 < j → j < m →
          ((List.range m).foldl (argminRStep l) (0, l.getD 0 0)).2 < l.getD j 0)) := by
  intro m
  induction m with
  | zero =>
    intro _
    by_cases h0 : l.getD 0 0 = ⊤
    · left
      exact ⟨by simpa using h0, rfl, by intro j hj; simp at hj⟩
    · right
      refine ⟨by simpa using h0, List.length_pos.mpr hl, by simp, ?_, ?_⟩
      · intro j hj; simp at hj
      · intro j hj1 hj2; simp at hj2
  | succ m ih =>
    intro hm
    obtain hA | hB := ih (by omega)
    · obtain ⟨ihv, ihp, ihall⟩ := hA
      rw [List.range_succ, List.foldl_append, List.foldl_cons, List.foldl_nil]
      set st := (List.range m).foldl (argminRStep l) (0, l.getD 0 0) with hst
      rw [argminRStep]
      by_cases hx : l.getD m 0 = ⊤
      · rw [if_neg (fun hc => hc.2 hx)]
        left
        refine ⟨ihv, ihp, ?_⟩
        intro j hj
        rcases Nat.lt_or_ge j m with hjm | hjm
        · exact ihall j hjm
        · have : j = m := by omega
          subst this; exact hx
      · rw [if_pos ⟨by rw [ihv]; exact le_top, hx⟩]
        right
        refine ⟨hx, by omega, rfl, ?_, ?_⟩
        · intro j hj
          rcases Nat.lt_or_ge j m with hjm | hjm
          · rw [ihall j hjm]; exact le_top
          · have : j = m := by omega
            subst this; exact le_refl _
        · intro j hj1 hj2; omega
    · obtain ⟨ihv, ihp, ihval, ihle, ihlt⟩ := hB
      rw [List.range_succ, List.foldl_append, List.foldl_cons, List.foldl_nil]
      set st := (List.range m).foldl (argminRStep l) (0, l.getD 0 0) with hst
      rw [argminRStep]
      by_cases hcond : l.getD m 0 ≤ st.2 ∧ l.getD m 0 ≠ ⊤
      · rw [if_pos hcond]
        right
        refine ⟨hcond.2, by omega, rfl, ?_, ?_⟩
        · intro j hj
          rcases Nat.lt_or_ge j m with hjm | hjm
          · exact le_trans hcond.1 (ihle j hjm)
          · have : j = m := by omega
            subst this; exact le_refl _
        · intro j hj1 hj2
          omega
      · rw [if_neg hcond]
        right
        have hgt : st.2 < l.getD m 0 := by
          rcases not_and_or.mp hcond with h | h
          · exact not_le.mp h
          · rw [not_not.mp h]
            exact lt_top_iff_ne_top.mpr ihv
        refine ⟨ihv, ihp, ihval, ?_, ?_⟩
        · intro j hj
          rcases Nat.lt_or_ge j m with hjm | hjm
          · exact ihle j hjm
          · have : j = m := by omega
            subst this; exact le_of_lt hgt
        · intro j hj1 hj2
          rcases Nat.lt_or_ge j m with hjm | hjm
          · exact ihlt j hj1 hjm
          · have : j = m := by omega
            subst this; exact hgt

theorem argmin_r_spec (l : List ℕ∞) (hl : ∃ a ∈ l, a ≠ ⊤) :
    argmin_r l < l.length ∧
    (∀ j < l.length, l.getD (argmin_r l) 0 ≤ l.getD j 0) ∧
    (∀ j, argmin_r l < j → j < l.length → l.getD (argmin_r l) 0 < l.getD j 0) := by
  obtain ⟨a, ha, hane⟩ := hl
  have hlne : l ≠ [] := by rintro rfl; cases ha
  obtain hA | hB := argminR_loop_inv l hlne l.length (le_refl _)
  · exfalso
    obtain ⟨i, hi, rfl⟩ := List.mem_iff_getElem.mp ha
    have := hA.2.2 i hi
    rw [List.getD_eq_getElem l 0 hi] at this
    exact hane this
  · obtain ⟨_, h1, h2, h3, h4⟩ := hB
    rw [argmin_r]
    rw [h2] at h3 h4
    exact ⟨h1, h3, h4⟩

/-! ### Minimisers of the option list -/

theorem getD_mem {α : Type} [Inhabited α] (l : List α) (p : Nat) (hp : p < l.length)
    (d : α) : l.getD p d ∈ l := by
  rw [List.getD_eq_getElem l d hp]
  exact List.getElem_mem hp

theorem option_list_getD_min (n k : Nat) (hn : 1 ≤ n) (hk : 1 ≤ k) (p : Nat) (hp : p < n)
    (hle : ∀ j < n, (option_list n k).getD p 0 ≤ (option_list n k).getD j 0) :
    (option_list n k).getD p 0 = T n k := by
  have hlen := option_list_length n k
  have hne : option_list n k ≠ [] := by
    intro h; rw [h] at hlen; simp at hlen; omega
  have h1 : T n k ≤ (option_list n k).getD p 0 := by
    rw [T_eq_min n k hn hk]
    exact foldr_min_le (getD_mem _ p (by omega) 0)
  have h2 : (option_list n k).getD p 0 ≤ T n k := by
    rw [T_eq_min n k hn hk]
    obtain ⟨j, hj, hjv⟩ := List.mem_iff_getElem.mp (foldr_min_mem hne)
    rw [← hjv]
    rw [← List.getD_eq_getElem (option_list n k) 0 hj]
    exact hle j (by omega)
  exact le_antisymm h2 h1

theorem optimal_split_spec (n k : Nat) (hn : 1 ≤ n) (hk : 1 ≤ k) :
    ∃ il ir, optimal_x_l n k = some il ∧ optimal_x_r n k = some ir ∧
      il ≤ ir ∧ il < n ∧ ir < n ∧
      ((il + 1 : ℕ) : ℕ∞) + T (n - (il + 1)) (k - 1) + T il k = T n k ∧
      ((ir + 1 : ℕ) : ℕ∞) + T (n - (ir + 1)) (k - 1) + T ir k = T n k ∧
      (∀ j < il, ((j + 1 : ℕ) : ℕ∞) + T (n - (j + 1)) (k - 1) + T j k ≠ T n k) ∧
      (∀ j, ir < j → j < n →
        ((j + 1 : ℕ) : ℕ∞) + T (n - (j + 1)) (k - 1) + T j k ≠ T n k) := by
  have hlen := option_list_length n k
  have hne : option_list n k ≠ [] := by
    intro h; rw [h] at hlen; simp at hlen; omega
  have hfin : ∃ a ∈ option_list n k, a ≠ ⊤ := by
    refine ⟨((n : ℕ) : ℕ∞) + T (n - n) (k - 1) + T (n - 1) k,
      mem_option_list n k n hn (le_refl n), ?_⟩
    rw [Nat.sub_self, T_zero, add_zero]
    exact WithTop.add_ne_top.mpr ⟨WithTop.natCast_ne_top _, T_ne_top (n - 1) k hk⟩
  obtain ⟨hl1, hl2, hl3⟩ := argmin_l_spec (option_list n k) hne
  obtain ⟨hr1, hr2, hr3⟩ := argmin_r_spec (option_list n k) hfin
  set il := argmin_l (option_list n k) with hil
  set ir := argmin_r (option_list n k) with hir
  have hilv : (option_list n k).getD il 0 = T n k := by
    refine option_list_getD_min n k hn hk il (by omega) ?_
    intro j hj; exact hl2 j (by omega)
  have hirv : (option_list n k).getD ir 0 = T n k := by
    refine option_list_getD_min n k hn hk ir (by omega) ?_
    intro j hj; exact hr2 j (by omega)
  have hige : il ≤ ir := by
    by_contra hlt
    have h := hl3 ir (by omega)
    rw [hilv, hirv] at h
    exact lt_irrefl _ h
  refine ⟨il, ir, ?_, ?_, hige, by omega, by omega, ?_, ?_, ?_, ?_⟩
  · rw [optimal_x_l, if_neg (by omega), if_neg (by omega)]
  · rw [optimal_x_r, if_neg (by omega), if_neg (by omega)]
  · rw [← option_list_get n k il (by omega)]; exact hilv
  · rw [← option_list_get n k ir (by omega)]; exact hirv
  · intro j hj
    rw [← option_list_get n k j (by omega)]
    have h := hl3 j hj
    rw [hilv] at h
    exact (ne_of_gt h)
  · intro j hj1 hj2
    rw [← option_list_get n k j (by omega)]
    have h := hr3 j hj1 (by omega)
    rw [hirv] at h
    exact (ne_of_gt h)

theorem optimal_x_l_none (n k : Nat) (h : n = 0 ∨ k = 0) : optimal_x_l n k = none := by
  rcases h with h | h
  · rw [optimal_x_l, if_pos h]
  · rw [optimal_x_l]
    by_cases hn : n = 0
    · rw [if_pos hn]
    · rw [if_neg hn, if_pos h]

theorem optimal_x_r_none (n k : Nat) (h : n = 0 ∨ k = 0) : optimal_x_r n k = none := by
  rcases h with h | h
  · rw [optimal_x_r, if_pos h]
  · rw [optimal_x_r]
    by_cases hn : n = 0
    · rw [if_pos hn]
    · rw [if_neg hn, if_pos h]

/-! ### Concrete oracle values -/

theorem T_one_one : T 1 1 = 1 := by
  have := T_n_one 1
  simpa using this

theorem T_two_one : T 2 1 = 3 := by
  have := T_n_one 2
  norm_num at this
  exact this

theorem option_list_two_one : option_list 2 1 = [⊤, 3] := by
  rw [option_list, show List.range 2 = [0, 1] from rfl]
  simp only [List.map_cons, List.map_nil]
  rw [show T 1 0 = ⊤ from T_succ_zero 0, T_zero 1, T_zero 0, T_one_one]
  decide

/-! ### The integer-input oracle agrees with `T` on valid inputs -/

theorem mapM_eq_some_map {α β : Type} (f : α → Option β) (g : α → β) :
    ∀ l : List α, (∀ a ∈ l, f a = some (g a)) → l.mapM f = some (l.map g) := by
  intro l
  induction l with
  | nil => intro _; rfl
  | cons a l ih =>
    intro h
    rw [List.mapM_cons, h a (List.mem_cons_self a l), ih (fun b hb => h b (List.mem_cons_of_mem a hb))]
    rfl

theorem TInt_agrees : ∀ s n k : Nat, n + k ≤ s → ∀ fuel, n + k + 1 ≤ fuel →
    TInt fuel (n : Int) (k : Int) = some (T n k) := by
  intro s
  induction s using Nat.strong_induction_on with
  | _ s ih =>
    intro n k hnk fuel hfuel
    match fuel, hfuel with
    | fuel + 1, hfuel =>
      rw [TInt]
      by_cases hn : n = 0
      · subst hn
        rw [if_pos (by simp), T_zero]
      · rw [if_neg (by exact_mod_cast hn)]
        by_cases hk : k = 0
        · subst hk
          rw [if_pos (by simp), T_pos_zero n (by omega)]
        · rw [if_neg (by exact_mod_cast hk)]
          have htn : ((n : Int)).toNat = n := Int.toNat_natCast n
          have hmap : (List.range ((n : Int)).toNat).mapM
              (fun i => do
                let a ← TInt fuel ((n : Int) - ((i : Int) + 1)) ((k : Int) - 1)
                let b ← TInt fuel (i : Int) (k : Int)
                pure (((i + 1 : ℕ) : ℕ∞) + a + b)) = some (option_list n k) := by
            rw [htn, option_list]
            apply mapM_eq_some_map
            intro i hi
            have hi' := List.mem_range.mp hi
            have hcast1 : (n : Int) - ((i : Int) + 1) = ((n - (i + 1) : ℕ) : Int) := by
              rw [Int.natCast_sub (by omega)]
              push_cast
              ring
            have hcast2 : (k : Int) - 1 = ((k - 1 : ℕ) : Int) := by
              rw [Int.natCast_sub (by omega)]
              push_cast
              ring
            rw [hcast1, hcast2,
              ih ((n - (i + 1)) + (k - 1)) (by omega) (n - (i + 1)) (k - 1) (le_refl _)
                fuel (by omega),
              ih (i + k) (by omega) i k (le_refl _) fuel (by omega)]
            rfl
          rw [hmap]
          have hlen := option_list_length n k
          have hne : option_list n k ≠ [] := by
            intro h; rw [h] at hlen; simp at hlen; omega
          obtain ⟨e, rest, hcons⟩ := List.exists_cons_of_ne_nil hne
          rw [hcons]
          rw [T_eq_min n k (by omega) (by omega), hcons]

/-! ### The recursive enumerator with a single slot (`k = 1`) -/

theorem pyGet_natCast {α : Type} (l : List α) (j : Nat) : pyGet l (j : Int) = l.get? j := by
  rw [pyGet, if_pos (Int.natCast_nonneg j), Int.toNat_natCast]

theorem pyGet_range_one (n j : Nat) (hj : j < n) :
    pyGet (List.range' 1 n) (j : Int) = some (1 + j) := by
  rw [pyGet_natCast, List.get?_eq_getElem?, List.getElem?_range' 1 1 hj, one_mul]

theorem intRange_cons (a b : Int) (h : a < b) : intRange a b = a :: intRange (a + 1) b := by
  rw [intRange, intRange]
  have h1 : (b - a).toNat = (b - (a + 1)).toNat + 1 := by omega
  rw [h1, List.range_succ_eq_map, List.map_cons, List.map_map]
  refine List.cons_eq_cons.mpr ⟨by simp, ?_⟩
  apply List.map_congr_left
  intro j _
  simp only [Function.comp_apply]
  push_cast
  ring

theorem binomial_one (i : Nat) (hi : 1 ≤ i) : binomial i 1 = i := by
  rcases Nat.lt_or_ge i 2 with h2 | h2
  · have : i = 1 := by omega
    subst this
    rw [binomial, if_neg (by omega), if_pos (Or.inr rfl)]
  · rw [binomial, if_neg (by omega), if_neg (by omega), show min 1 (i - 1) = 1 by omega,
      show List.range 1 = [0] from rfl, List.foldl_cons, List.foldl_nil, one_mul,
      Nat.sub_zero, Nat.div_one]

theorem seqLoop_level_one (n : Nat) :
    ∀ fuel i, 1 ≤ i → n + 2 ≤ fuel + i →
      seqLoop 1 (n : Int) fuel i (i - 1) = List.range' i (n + 1 - i) := by
  intro fuel
  induction fuel with
  | zero =>
    intro i hi hfi
    rw [seqLoop, show n + 1 - i = 0 by omega, List.range'_zero]
  | succ fuel ih =>
    intro i hi hfi
    rw [seqLoop]
    by_cases hin : i ≤ n
    · rw [if_pos (by exact_mod_cast (by omega : (i - 1 : ℕ) < n))]
      have hb : binomial (1 + i - 1) 1 = i := by
        rw [show 1 + i - 1 = i by omega, binomial_one i hi]
      rw [hb]
      have hrec := ih (i + 1) (by omega) (by omega)
      rw [show i + 1 - 1 = i from rfl] at hrec
      rw [hrec, show n + 1 - i = (n + 1 - (i + 1)) + 1 by omega, List.range'_succ]
    · rw [if_neg (by exact_mod_cast (by omega : ¬((i - 1 : ℕ) < n))),
        show n + 1 - i = 0 by omega, List.range'_zero]

theorem buildSeqs_one (n : Nat) : buildSeqs n 1 = some [List.range' 1 n] := by
  rw [buildSeqs, show List.range 1 = [0] from rfl, List.foldlM_cons]
  have hloop : seqLoop 1 ((n : Int)) (n + 1) 1 0 = List.range' 1 n := by
    have h2 := seqLoop_level_one n (n + 1) 1 (le_refl 1) (by omega)
    rw [show (1 : ℕ) - 1 = 0 from rfl, show n + 1 - 1 = n from rfl] at h2
    exact h2
  simp [hloop]

theorem searchIdxLoop_arith (n p : Nat) (hp1 : 1 ≤ p) (hpn : p < n) :
    ∀ d s (idx : Int), p + 1 - s ≤ d → s ≤ p → (s < p ∨ idx = ((p - 1 : ℕ) : Int)) →
      searchIdxLoop (List.range' 1 n) (p : Int) (intRange (s : Int) ((n : Int) + 1)) idx =
        some ((p - 1 : ℕ) : Int) := by
  intro d
  induction d with
  | zero => intro s idx h1 h2 h3; omega
  | succ d ih =>
    intro s idx h1 h2 h3
    have hsn : (s : Int) < (n : Int) + 1 := by omega
    rw [intRange_cons _ _ hsn]
    simp only [searchIdxLoop, pyGet_range_one n s (by omega)]
    by_cases hsp : s < p
    · rw [if_pos (by exact_mod_cast (by omega : 1 + s ≤ p))]
      rw [show (s : Int) + 1 = ((s + 1 : ℕ) : Int) by push_cast; ring]
      apply ih (s + 1) (s : Int) (by omega) (by omega)
      rcases Nat.lt_or_ge (s + 1) p with h | h
      · exact Or.inl h
      · right
        have hs : s = p - 1 := by omega
        rw [hs]
    · rw [if_neg (by exact_mod_cast (by omega : ¬(1 + s ≤ p)))]
      rcases h3 with h | h
      · omega
      · rw [h]

theorem searchIdx_arith (n p st : Nat) (hp1 : 1 ≤ p) (hpn : p < n) (hst : st ≤ p - 1) :
    searchIdx (List.range' 1 n) (st : Int) (p : Int) = some ((p - 1 : ℕ) : Int) := by
  rw [searchIdx, List.length_range']
  exact searchIdxLoop_arith n p hp1 hpn (p + 1 - st) st 0 (le_refl _) (by omega)
    (Or.inl (by omega))

theorem lowerAnchor_k1 (n p c : Nat) (hcn : c < n) (hcp : c < p - 1) :
    lowerAnchor [List.range' 1 n] [(c : Int)] 1 (1 + (p - 1)) = some (1 + c) := by
  rw [lowerAnchor, show List.range 1 = [0] from rfl]
  simp only [List.foldlM_cons, List.foldlM_nil, List.getD_cons_zero, pyGet_range_one n c hcn]
  rw [if_pos ⟨by omega, by omega⟩]
  rfl

theorem updateCheckpoints_k1 (n p c : Nat) (o : Int) (hp1 : 1 ≤ p) (hpn : p < n)
    (hc : c ≤ p - 1) :
    updateCheckpoints ⟨n, 1, p, o, [List.range' 1 n], [(c : Int)]⟩ =
      some ⟨n, 1, p, o + (if c = p - 1 then 0 else (p : Int) - (1 + (c : Int))),
        [List.range' 1 n], [((p - 1 : ℕ) : Int)]⟩ := by
  rw [updateCheckpoints]
  simp only [show List.range 1 = [0] from rfl, List.foldlM_cons, List.foldlM_nil,
    List.getD_cons_zero]
  have hstart : (if (c : Int) = 0 then (0 : Int) else (c : Int) - 1) =
      ((if c = 0 then 0 else c - 1 : ℕ) : Int) := by
    by_cases h : c = 0
    · simp [h]
    · rw [if_neg (by exact_mod_cast h), if_neg h]
      omega
  rw [hstart, searchIdx_arith n p (if c = 0 then 0 else c - 1) hp1 hpn (by omega)]
  have hlt : ((p - 1 : ℕ) : Int) < (n : Int) := by
    exact_mod_cast (by omega : p - 1 < n)
  by_cases hcp : c = p - 1
  · simp only [hcp, ne_eq, not_true_eq_false, if_false, Option.bind_eq_bind, Option.some_bind,
      List.length_range', Option.pure_def]
    simp [hlt, pyGet_range_one n (p - 1) (by omega)]
  · have hne : ((c : Int) ≠ ((p - 1 : ℕ) : Int)) := by exact_mod_cast hcp
    simp only [ne_eq, hne, not_false_eq_true, if_true, Option.bind_eq_bind, Option.some_bind,
      List.length_range', Option.pure_def]
    simp only [pyGet_range_one n (p - 1) (by omega), lowerAnchor_k1 n p c (by omega) (by omega),
      Option.some_bind]
    simp [hlt, pyGet_range_one n (p - 1) (by omega), if_neg hcp]
    omega

theorem rceK1_invariant (n : Nat) (hn : 2 ≤ n) :
    ∀ p, 1 ≤ p → p ≤ n - 1 →
      ∃ o : Int, (initRCE n 1).bind (rceNextTrueN p) =
        some ⟨n, 1, p, o, [List.range' 1 n], [((p - 1 : ℕ) : Int)]⟩ := by
  intro p
  induction p with
  | zero => omega
  | succ p ih =>
    intro _ hpn
    by_cases hp0 : p = 0
    · subst hp0
      refine ⟨1, ?_⟩
      rw [initRCE, buildSeqs_one]
      simp only [Option.map_some', Option.some_bind, rceNextTrueN, rceNextTrue, rceNext,
        List.replicate_one]
      rw [if_neg (by omega : ¬(0 ≥ n))]
      have hupd := updateCheckpoints_k1 n 1 0 1 (le_refl 1) (by omega) (by omega)
      simp only [Nat.cast_zero, Nat.sub_self] at hupd
      simp only [zero_add, Nat.zero_add]
      rw [hupd]
      simp
    · have hp1 : 1 ≤ p := by omega
      obtain ⟨o, ho⟩ := ih hp1 (by omega)
      refine ⟨o + 1 + (((p + 1 : ℕ) : Int) - (1 + ((p - 1 : ℕ) : Int))), ?_⟩
      have hassoc : (initRCE n 1).bind (rceNextTrueN (p + 1)) =
          ((initRCE n 1).bind (rceNextTrueN p)).bind rceNextTrue := by
        cases initRCE n 1 <;> rfl
      rw [hassoc, ho, Option.some_bind]
      simp only [rceNextTrue, rceNext]
      rw [if_neg (by omega : ¬(p ≥ n))]
      have hupd := updateCheckpoints_k1 n (p + 1) (p - 1) (o + 1) (by omega) (by omega)
        (by omega)
      rw [if_neg (by omega : ¬(p - 1 = p + 1 - 1))] at hupd
      simp only [Nat.add_sub_cancel] at hupd
      rw [hupd]
      simp only [Nat.add_sub_cancel]

theorem getCheckpointPosition_k1 (n p : Nat) (o : Int) (hpn : p - 1 < n) :
    getCheckpointPosition ⟨n, 1, p, o, [List.range' 1 n], [((p - 1 : ℕ) : Int)]⟩ =
      some ((1 + (p - 1) : ℕ) : Int) := by
  rw [getCheckpointPosition]
  simp only [show List.range 1 = [0] from rfl, List.foldlM_cons, List.foldlM_nil,
    List.getD_cons_zero, pyGet_range_one n (p - 1) hpn]
  simp

/-! ### The binary checkpoint tree -/

theorem insertSorted_mem (a x : Nat) : ∀ l, a ∈ insertSorted x l ↔ a = x ∨ a ∈ l := by
  intro l
  induction l with
  | nil => simp [insertSorted]
  | cons y ys ih =>
    rw [insertSorted]
    by_cases h1 : x < y
    · rw [if_pos h1]
      simp
    · rw [if_neg h1]
      by_cases h2 : x = y
      · rw [if_pos h2]
        subst h2
        simp only [List.mem_cons]
        tauto
      · rw [if_neg h2]
        simp only [List.mem_cons, ih]
        tauto

theorem sortedSet_mem (l : List Nat) (x : Nat) : x ∈ sortedSet l ↔ x ∈ l := by
  rw [sortedSet]
  induction l with
  | nil => simp
  | cons y ys ih =>
    rw [List.foldr_cons, insertSorted_mem]
    simp only [List.mem_cons]
    rw [ih]

theorem powersAux_mem (n : Nat) :
    ∀ fuel p x, 0 < p → n + 2 ≤ fuel + p →
      (x ∈ powersAux fuel n p ↔ ∃ t, x = p * 2 ^ t ∧ x ≤ n) := by
  intro fuel
  induction fuel with
  | zero =>
    intro p x hp hf
    rw [powersAux]
    simp only [List.not_mem_nil, false_iff]
    rintro ⟨t, rfl, hle⟩
    have : p ≤ p * 2 ^ t := Nat.le_mul_of_pos_right p (Nat.pos_pow_of_pos t (by omega))
    omega
  | succ fuel ih =>
    intro p x hp hf
    rw [powersAux]
    by_cases hpn : p ≤ n
    · rw [if_pos ⟨hp, hpn⟩]
      rw [List.mem_cons, ih (2 * p) x (by omega) (by omega)]
      constructor
      · rintro (rfl | ⟨t, rfl, hle⟩)
        · exact ⟨0, by simp, hpn⟩
        · exact ⟨t + 1, by ring, hle⟩
      · rintro ⟨t, rfl, hle⟩
        cases t with
        | zero => left; simp
        | succ t => right; exact ⟨t, by ring, hle⟩
    · rw [if_neg (by intro hc; exact hpn hc.2)]
      simp only [List.not_mem_nil, false_iff]
      rintro ⟨t, rfl, hle⟩
      have : p ≤ p * 2 ^ t := Nat.le_mul_of_pos_right p (Nat.pos_pow_of_pos t (by omega))
      omega

theorem powersFrom_mem (n x : Nat) : x ∈ powersFrom n 1 ↔ ∃ t, x = 2 ^ t ∧ x ≤ n := by
  rw [powersFrom, powersAux_mem n (n + 1) 1 x (by omega) (by omega)]
  simp

theorem powersFrom_ne_nil (n : Nat) (hn : 1 ≤ n) : powersFrom n 1 ≠ [] := by
  have h1 : (1 : ℕ) ∈ powersFrom n 1 := (powersFrom_mem n 1).mpr ⟨0, by simp, hn⟩
  exact List.ne_nil_of_mem h1

theorem headD_append (l : List Nat) (x : List Nat) (h : l ≠ []) :
    ∀ d, (l ++ x).headD d = l.headD d := by
  intro d
  cases l with
  | nil => exact absurd rfl h
  | cons a t => rfl

theorem buildLoop_head :
    ∀ fuel (levels : List (List Nat)) current, levels ≠ [] →
      buildLoop fuel levels current ≠ [] ∧
      (buildLoop fuel levels current).headD [] = levels.headD [] := by
  intro fuel
  induction fuel with
  | zero => intro levels current h; exact ⟨h, rfl⟩
  | succ fuel ih =>
    intro levels current h
    rw [buildLoop]
    by_cases h1 : current.length ≤ 1
    · rw [if_pos h1]; exact ⟨h, rfl⟩
    · rw [if_neg h1]
      set nxt := (List.range (current.length - 1)).filterMap
        (fun i =>
          let low := current.getD i 0
          let high := current.getD (i + 1) 0
          let mid := (low + high) / 2
          if mid ≠ low ∧ mid ≠ high then some mid else none) with hnxt
      by_cases h2 : nxt = []
      · rw [if_pos h2]; exact ⟨h, rfl⟩
      · rw [if_neg h2]
        have happ : levels ++ [sortedSet nxt] ≠ [] := by simp
        obtain ⟨hne, hhead⟩ := ih (levels ++ [sortedSet nxt]) (sortedSet (current ++ nxt)) happ
        refine ⟨hne, ?_⟩
        rw [hhead]
        cases levels with
        | nil => exact absurd rfl h
        | cons a t => rfl

theorem buildLevels_zero : buildLevels 0 = none := by rfl

theorem initPLN_zero (k : Nat) : initPLN 0 k = none := by rfl

theorem buildLevels_pos (n : Nat) (hn : 1 ≤ n) :
    ∃ ls, buildLevels n = some ls ∧ ls ≠ [] ∧
      (∀ x, x ∈ ls.headD [] ↔ ((∃ t, x = 2 ^ t ∧ x ≤ n) ∨ x = n)) := by
  have hne := powersFrom_ne_nil n hn
  have hsome : (powersFrom n 1).getLast?.isSome = true := List.getLast?_isSome.mpr hne
  obtain ⟨last, hlast⟩ := Option.isSome_iff_exists.mp hsome
  have hlastmem : last ∈ powersFrom n 1 := by
    obtain ⟨ys, hys⟩ := List.getLast?_eq_some_iff.mp hlast
    rw [hys]
    simp
  rw [buildLevels]
  simp only [hlast]
  set level0' := if last ≠ n then powersFrom n 1 ++ [n] else powersFrom n 1 with hl0
  refine ⟨buildLoop n [sortedSet level0'] level0', rfl, ?_, ?_⟩
  · exact (buildLoop_head n [sortedSet level0'] level0' (by simp)).1
  · intro x
    have hhead := (buildLoop_head n [sortedSet level0'] level0' (by simp)).2
    rw [hhead]
    have hmem : x ∈ sortedSet level0' ↔ x ∈ level0' := sortedSet_mem _ x
    simp only [List.headD]
    rw [hmem, hl0]
    by_cases hln : last ≠ n
    · rw [if_pos hln, List.mem_append]
      rw [powersFrom_mem]
      simp
    · rw [if_neg hln]
      rw [powersFrom_mem]
      push_neg at hln
      constructor
      · intro h; exact Or.inl h
      · rintro (h | hxn)
        · exact h
        · have hlm := (powersFrom_mem n last).mp hlastmem
          rw [hln] at hlm
          rw [hxn]
          exact hlm

/-! ### Boundary behaviour and the tree enumerator's `prev` -/

theorem rceNext_boundary (s : RCEState) (h : s.n ≤ s.pos) : rceNext s = some (false, s) := by
  rw [rceNext, if_pos (by omega : s.pos ≥ s.n)]

theorem rcePrev_boundary (s : RCEState) (h : s.pos = 0) : rcePrev s = some (false, s) := by
  rw [rcePrev, if_pos (by omega : s.pos ≤ 0)]

theorem plnNext_boundary (s : PLNState) (h : s.n ≤ s.pos) : plnNext s = (false, s) := by
  rw [plnNext, if_pos (by omega : s.pos ≥ s.n)]

theorem plnPrev_boundary (s : PLNState) (h : s.pos = 0) : plnPrev s = (false, s) := by
  rw [plnPrev, if_pos (by omega : s.pos ≤ 0)]

theorem plnPrev_spec (s : PLNState) (h : 0 < s.pos) :
    (plnPrev s).1 = true ∧
    (plnPrev s).2.pos = s.pos - 1 ∧
    (((allPositions s.levels).filter (fun q => q ≤ s.pos - 1)).length < s.checkpoints.length →
      (plnPrev s).2.checkpoints = s.checkpoints.dropLast ∧
      (plnPrev s).2.ops = s.ops + ((s.checkpoints.getLastD 0 : Int) - ((s.pos - 1 : ℕ) : Int))) ∧
    (¬ ((allPositions s.levels).filter (fun q => q ≤ s.pos - 1)).length < s.checkpoints.length →
      (plnPrev s).2.checkpoints = s.checkpoints ∧
      (plnPrev s).2.ops = s.ops + 1) := by
  rw [plnPrev, if_neg (by omega : ¬ s.pos ≤ 0)]
  by_cases hc : ((allPositions s.levels).filter (fun q => q ≤ s.pos - 1)).length <
      s.checkpoints.length
  · rw [if_pos hc]
    exact ⟨rfl, rfl, fun _ => ⟨rfl, rfl⟩, fun hnc => absurd hc hnc⟩
  · rw [if_neg hc]
    exact ⟨rfl, rfl, fun hcc => absurd hcc hc, fun _ => ⟨rfl, rfl⟩⟩

/-! ## Claims -/

/-- C1: the oracle `T` satisfies the reference definition: `T(0,k) = 0` for
all `k`, `T(n,0) = +∞` for `n > 0`, `T(n,k)` for `n, k ≥ 1` is the minimum
over `x ∈ [1,n]` of `x + T(n-x, k-1) + T(x-1, k)` (it is a lower bound of
all candidates and attained by one), and the value is a finite natural
number whenever `k ≥ 1`. -/
theorem claim_C1 :
    (∀ k, T 0 k = 0) ∧
    (∀ n, 0 < n → T n 0 = ⊤) ∧
    (∀ n k, 1 ≤ n → 1 ≤ k →
      (∀ x, 1 ≤ x → x ≤ n → T n k ≤ ((x : ℕ) : ℕ∞) + T (n - x) (k - 1) + T (x - 1) k) ∧
      (∃ x, 1 ≤ x ∧ x ≤ n ∧ T n k = ((x : ℕ) : ℕ∞) + T (n - x) (k - 1) + T (x - 1) k)) ∧
    (∀ n k, 1 ≤ k → ∃ m : ℕ, T n k = (m : ℕ∞)) := by
  refine ⟨T_zero, T_pos_zero, ?_, ?_⟩
  · intro n k hn hk
    exact ⟨fun x hx1 hxn => T_le_option n k x hx1 hxn hk, T_attained n k hn hk⟩
  · intro n k hk
    obtain ⟨m, hm⟩ := WithTop.ne_top_iff_exists.mp (T_ne_top n k hk)
    exact ⟨m, hm.symm⟩

/-- Witness for C1 at `(n,k) = (2,1)`. -/
theorem claim_C1_witness :
    T 2 1 ≤ ((2 : ℕ) : ℕ∞) + T (2 - 2) (1 - 1) + T (2 - 1) 1 :=
  (claim_C1.2.2.1 2 1 (by norm_num) (by norm_num)).1 2 (by norm_num) (by norm_num)

/-- C2: evaluating the code at the failing input: for
`RecursiveCheckpointEnumerator(n=1, k=1)`, `run_full_cycle()` does not
return normally — the first `next()` hits the out-of-range read
`seq[len(seq)]` in the `_update_checkpoints` search loop (the level-1
sequence is `[1]` and its single value is `≤ pos`), so the cycle raises
`IndexError` instead of finishing at position 0. -/
theorem claim_C2 : (initRCE 1 1).bind rceRunFullCycle = none := by rfl

/-- Counterexample for C3 at `(n,k) = (2,2)`: after a single successful
`next()` the enumerator is at `pos = 1` while the sum of the slot-resolved
sequence values `seq[2][0] + seq[1][0] = 1 + 1` is `2 ≠ 1` (the code's
sequences start at `C(m,m) = 1`, so a slot cannot stand for value `0`). -/
theorem claim_C3_counterexample :
    (initRCE 2 2).bind (rceNextTrueN 1) =
      some ⟨2, 2, 1, 1, [[1, 3], [1]], [0, 0]⟩ ∧
    getCheckpointPosition ⟨2, 2, 1, 1, [[1, 3], [1]], [0, 0]⟩ = some 2 ∧
    (⟨2, 2, 1, 1, [[1, 3], [1]], [0, 0]⟩ : RCEState).pos = 1 ∧ (2 : Int) ≠ ((1 : ℕ) : Int) := by
  refine ⟨by rfl, by rfl, rfl, by decide⟩

/-- C3 amended: with a single slot (`k = 1`) the invariant does hold along
the forward phase: after `p` successful `next()` calls (`1 ≤ p ≤ n-1`) the
position is `p` and the slot-resolved sum equals `p` exactly; the original
claim fails already at the initial state and, for `k ≥ 2`, after the first
`next()` (see the counterexample), because the sequences have no leading
zero entry. -/
theorem claim_C3 : ∀ n p, 2 ≤ n → 1 ≤ p → p ≤ n - 1 →
    ∃ s, (initRCE n 1).bind (rceNextTrueN p) = some s ∧ s.pos = p ∧
      getCheckpointPosition s = some ((p : ℕ) : Int) := by
  intro n p hn hp1 hpn
  obtain ⟨o, ho⟩ := rceK1_invariant n hn p hp1 hpn
  refine ⟨_, ho, rfl, ?_⟩
  have h := getCheckpointPosition_k1 n p o (by omega)
  rw [h]
  congr 1
  omega

/-- Witness for C3 at `(n, p) = (3, 2)`. -/
theorem claim_C3_witness :
    ∃ s, (initRCE 3 1).bind (rceNextTrueN 2) = some s ∧ s.pos = 2 ∧
      getCheckpointPosition s = some ((2 : ℕ) : Int) :=
  claim_C3 3 2 (by norm_num) (by norm_num) (by norm_num)

/-- C4: the oracle is monotone: more memory never increases the optimal
cost, and the cost is non-decreasing in `n` for fixed `k`. -/
theorem claim_C4 :
    (∀ n k, 1 ≤ k → T n k ≥ T n (k + 1)) ∧ (∀ n k, T n k ≤ T (n + 1) k) :=
  ⟨fun n k _ => T_mono_k n k, T_mono_n⟩

/-- Witness for C4 at `(n,k) = (3,1)`. -/
theorem claim_C4_witness : T 3 1 ≥ T 3 (1 + 1) :=
  claim_C4.1 3 1 (by norm_num)

/-- Counterexample for C5 at `(n,k) = (2,1)`: `optimal_x_l(2,1)` returns
`1`, the 0-based index into `option_list` (the minimising split is
`x = 2`), and substituting the returned value itself as `x` into
`x + T(n-x,k-1) + T(x-1,k)` gives `1 + T(1,0) + T(0,1) = +∞ ≠ 3 = T(2,1)`. -/
theorem claim_C5_counterexample :
    optimal_x_l 2 1 = some 1 ∧
    ((1 : ℕ) : ℕ∞) + T (2 - 1) (1 - 1) + T (1 - 1) 1 ≠ T 2 1 := by
  constructor
  · rw [optimal_x_l, if_neg (by omega), if_neg (by omega), option_list_two_one]
    decide
  · rw [show (2 : ℕ) - 1 = 1 from rfl, show (1 : ℕ) - 1 = 0 from rfl, T_succ_zero 0,
      T_zero 1, T_two_one]
    decide

/-- C5 amended: `optimal_x_l` / `optimal_x_r` return the left-most and
right-most minimising 0-based index of `option_list(n,k)` — the split is
the returned value plus one.  The left index never exceeds the right one,
substituting `x = returned + 1` into the recurrence yields exactly
`T(n,k)` for both, indices left of `optimal_x_l` and right of
`optimal_x_r` are not minimisers, and both are `None` when `n = 0` or
`k = 0`. -/
theorem claim_C5 :
    (∀ n k, 1 ≤ n → 1 ≤ k →
      ∃ il ir, optimal_x_l n k = some il ∧ optimal_x_r n k = some ir ∧ il ≤ ir ∧
        ((il + 1 : ℕ) : ℕ∞) + T (n - (il + 1)) (k - 1) + T il k = T n k ∧
        ((ir + 1 : ℕ) : ℕ∞) + T (n - (ir + 1)) (k - 1) + T ir k = T n k ∧
        (∀ j, j < il → ((j + 1 : ℕ) : ℕ∞) + T (n - (j + 1)) (k - 1) + T j k ≠ T n k) ∧
        (∀ j, ir < j → j < n →
          ((j + 1 : ℕ) : ℕ∞) + T (n - (j + 1)) (k - 1) + T j k ≠ T n k)) ∧
    (∀ n k, n = 0 ∨ k = 0 → optimal_x_l n k = none ∧ optimal_x_r n k = none) := by
  constructor
  · intro n k hn hk
    obtain ⟨il, ir, h1, h2, h3, _, _, h6, h7, h8, h9⟩ := optimal_split_spec n k hn hk
    exact ⟨il, ir, h1, h2, h3, h6, h7, h8, h9⟩
  · intro n k h
    exact ⟨optimal_x_l_none n k h, optimal_x_r_none n k h⟩

/-- Witness for C5 at `(n,k) = (4,2)`. -/
theorem claim_C5_witness :
    ∃ il ir, optimal_x_l 4 2 = some il ∧ optimal_x_r 4 2 = some ir ∧ il ≤ ir ∧
      ((il + 1 : ℕ) : ℕ∞) + T (4 - (il + 1)) (2 - 1) + T il 2 = T 4 2 ∧
      ((ir + 1 : ℕ) : ℕ∞) + T (4 - (ir + 1)) (2 - 1) + T ir 2 = T 4 2 ∧
      (∀ j, j < il → ((j + 1 : ℕ) : ℕ∞) + T (4 - (j + 1)) (2 - 1) + T j 2 ≠ T 4 2) ∧
      (∀ j, ir < j → j < 4 →
        ((j + 1 : ℕ) : ℕ∞) + T (4 - (j + 1)) (2 - 1) + T j 2 ≠ T 4 2) :=
  claim_C5.1 4 2 (by norm_num) (by norm_num)

/-- C6: the closed form for a single checkpoint slot:
`T(n,1) = n(n+1)/2`. -/
theorem claim_C6 : ∀ n, T n 1 = ((n * (n + 1) / 2 : ℕ) : ℕ∞) := T_n_one

/-- Counterexample for C7: the call `T(-1, 0)` does not fail at all — it
returns the numeric value `+∞` through the `k == 0` branch, because the
code never validates its arguments. -/
theorem claim_C7_counterexample :
    TInt 1 (-1) 0 = some ⊤ ∧ TInt 1 (-1) 0 ≠ none := by
  constructor <;> decide

/-- C7 amended: the oracle performs no input validation.  For `n < 0` with
`k = 0` it returns `+∞` as a normal value; for `n < 0` with `k ≠ 0` it
fails, but with `min()` of an empty candidate list (`ValueError`), not an
`InvalidArgument` condition; for `k < 0` with `n > 0` it recurses down to
the `n = 0` base case and silently returns a number (e.g. `T(2,-1) = 2`).
On valid inputs `n ≥ 0`, `k ≥ 0` it is total and agrees with the
reference recurrence `T`. -/
theorem claim_C7 :
    (∀ fuel, 1 ≤ fuel → TInt fuel (-1) 0 = some ⊤) ∧
    (∀ fuel, 1 ≤ fuel → TInt fuel (-1) 1 = none) ∧
    TInt 3 2 (-1) = some 2 ∧
    (∀ n k : Nat, ∀ fuel, n + k + 1 ≤ fuel → TInt fuel (n : Int) (k : Int) = some (T n k)) := by
  refine ⟨?_, ?_, by decide, ?_⟩
  · intro fuel h
    match fuel, h with
    | fuel + 1, _ => rfl
  · intro fuel h
    match fuel, h with
    | fuel + 1, _ => rfl
  · intro n k fuel h
    exact TInt_agrees (n + k) n k (le_refl _) fuel h

/-- Witness for C7: with enough fuel, `T(2,1)` evaluates to `3` through
the integer-input model. -/
theorem claim_C7_witness : TInt 4 ((2 : ℕ) : Int) ((1 : ℕ) : Int) = some (T 2 1) :=
  claim_C7.2.2.2 2 1 4 (by norm_num)

/-- Counterexample for C8: the baseline stack wrapper does not follow the
boolean-result protocol: `prev()` with no saved positions raises
`ValueError` (modelled by `none`), and `next()` at `pos = n` (here
`n = 0`) performs no boundary check and mutates the state. -/
theorem claim_C8_counterexample :
    wrapperPrev ⟨0, 0, [], 0, 0⟩ = none ∧
    wrapperNext ⟨0, 0, [], 0, 0⟩ ≠ ⟨0, 0, [], 0, 0⟩ := by
  constructor <;> decide

/-- C8 amended: for the hierarchical and tree enumerators, `next()` at
`pos = n` and `prev()` at `pos = 0` return `False` and leave the whole
state unchanged, without raising; the baseline stack wrapper instead
raises `ValueError` on `prev()` with no saved positions and has no
boundary check in `next()` (see the counterexample). -/
theorem claim_C8 :
    (∀ s : RCEState, s.n ≤ s.pos → rceNext s = some (false, s)) ∧
    (∀ s : RCEState, s.pos = 0 → rcePrev s = some (false, s)) ∧
    (∀ s : PLNState, s.n ≤ s.pos → plnNext s = (false, s)) ∧
    (∀ s : PLNState, s.pos = 0 → plnPrev s = (false, s)) :=
  ⟨rceNext_boundary, rcePrev_boundary, plnNext_boundary, plnPrev_boundary⟩

/-- Witness for C8 at concrete boundary states. -/
theorem claim_C8_witness :
    rceNext ⟨1, 1, 1, 0, [[1]], [0]⟩ = some (false, ⟨1, 1, 1, 0, [[1]], [0]⟩) ∧
    rcePrev ⟨1, 1, 0, 0, [[1]], [0]⟩ = some (false, ⟨1, 1, 0, 0, [[1]], [0]⟩) ∧
    plnNext ⟨4, 2, 4, 0, [3, 4], 0, true, [[1, 2, 4], [3]]⟩ =
      (false, ⟨4, 2, 4, 0, [3, 4], 0, true, [[1, 2, 4], [3]]⟩) ∧
    plnPrev ⟨4, 2, 0, 0, [0], 0, true, [[1, 2, 4], [3]]⟩ =
      (false, ⟨4, 2, 0, 0, [0], 0, true, [[1, 2, 4], [3]]⟩) :=
  ⟨claim_C8.1 _ (by decide), claim_C8.2.1 _ (by decide),
   claim_C8.2.2.1 _ (by decide), claim_C8.2.2.2 _ (by decide)⟩

/-- Counterexample for C9 at `(n,k) = (4,2)` after a full forward pass:
the first `prev()` (pos 4 → 3) crosses below the most recently inserted
checkpoint `4`, yet nothing is evicted and exactly one operation is
charged; two steps later (pos 2 → 1), with pos already strictly below
`4`, checkpoint `4` is evicted and `4 - 1 = 3` operations are charged.
Eviction is therefore keyed to a count comparison, not to crossing below
the most recent checkpoint. -/
theorem claim_C9_counterexample :
    initPLN 4 2 = some ⟨4, 2, 0, 0, [0], 0, true, [[1, 2, 4], [3]]⟩ ∧
    (plnNext (plnNext (plnNext (plnNext
        ⟨4, 2, 0, 0, [0], 0, true, [[1, 2, 4], [3]]⟩).2).2).2).2 =
      ⟨4, 2, 4, 4, [3, 4], 0, true, [[1, 2, 4], [3]]⟩ ∧
    (⟨4, 2, 4, 4, [3, 4], 0, true, [[1, 2, 4], [3]]⟩ : PLNState).checkpoints.getLastD 0 = 4 ∧
    plnPrev ⟨4, 2, 4, 4, [3, 4], 0, true, [[1, 2, 4], [3]]⟩ =
      (true, ⟨4, 2, 3, 5, [3, 4], 0, false, [[1, 2, 4], [3]]⟩) ∧
    (3 : ℕ) < 4 ∧
    plnPrev ⟨4, 2, 3, 5, [3, 4], 0, false, [[1, 2, 4], [3]]⟩ =
      (true, ⟨4, 2, 2, 6, [3, 4], 0, false, [[1, 2, 4], [3]]⟩) ∧
    plnPrev ⟨4, 2, 2, 6, [3, 4], 0, false, [[1, 2, 4], [3]]⟩ =
      (true, ⟨4, 2, 1, 9, [3], 0, false, [[1, 2, 4], [3]]⟩) ∧
    (2 : ℕ) < 4 := by
  refine ⟨by rfl, by rfl, by rfl, by rfl, by decide, by rfl, by rfl, by decide⟩

/-- C9 amended: at any state with `pos > 0`, `prev()` returns `True` and
decrements `pos` by exactly one; it evicts the most recently inserted
checkpoint exactly when the number of tree positions `≤` the new `pos` is
strictly smaller than the number of held checkpoints — regardless of
where that checkpoint lies relative to `pos` — charging
`evicted − new_pos` operations; otherwise it charges exactly one. -/
theorem claim_C9 (s : PLNState) (h : 0 < s.pos) :
    (plnPrev s).1 = true ∧
    (plnPrev s).2.pos = s.pos - 1 ∧
    (((allPositions s.levels).filter (fun q => q ≤ s.pos - 1)).length < s.checkpoints.length →
      (plnPrev s).2.checkpoints = s.checkpoints.dropLast ∧
      (plnPrev s).2.ops = s.ops + ((s.checkpoints.getLastD 0 : Int) - ((s.pos - 1 : ℕ) : Int))) ∧
    (¬ ((allPositions s.levels).filter (fun q => q ≤ s.pos - 1)).length < s.checkpoints.length →
      (plnPrev s).2.checkpoints = s.checkpoints ∧
      (plnPrev s).2.ops = s.ops + 1) :=
  plnPrev_spec s h

/-- Witness for C9 at the post-forward state of `(n,k) = (4,2)`. -/
theorem claim_C9_witness :
    (plnPrev ⟨4, 2, 4, 4, [3, 4], 0, true, [[1, 2, 4], [3]]⟩).1 = true ∧
    (plnPrev ⟨4, 2, 4, 4, [3, 4], 0, true, [[1, 2, 4], [3]]⟩).2.pos = 4 - 1 ∧
    (((allPositions [[1, 2, 4], [3]]).filter (fun q => q ≤ 4 - 1)).length <
        ([3, 4] : List ℕ).length →
      (plnPrev ⟨4, 2, 4, 4, [3, 4], 0, true, [[1, 2, 4], [3]]⟩).2.checkpoints =
        ([3, 4] : List ℕ).dropLast ∧
      (plnPrev ⟨4, 2, 4, 4, [3, 4], 0, true, [[1, 2, 4], [3]]⟩).2.ops =
        4 + ((([3, 4] : List ℕ).getLastD 0 : Int) - ((4 - 1 : ℕ) : Int))) ∧
    (¬ ((allPositions [[1, 2, 4], [3]]).filter (fun q => q ≤ 4 - 1)).length <
        ([3, 4] : List ℕ).length →
      (plnPrev ⟨4, 2, 4, 4, [3, 4], 0, true, [[1, 2, 4], [3]]⟩).2.checkpoints = [3, 4] ∧
      (plnPrev ⟨4, 2, 4, 4, [3, 4], 0, true, [[1, 2, 4], [3]]⟩).2.ops = 4 + 1) :=
  claim_C9 ⟨4, 2, 4, 4, [3, 4], 0, true, [[1, 2, 4], [3]]⟩ (by decide)

/-- C10: building the binary checkpoint tree with `n = 0` fails with an
out-of-range access (`level_0[-1]` on the empty powers-of-two list), so
`ProperLogNEnumerator(0)` cannot be constructed for any `k`; for every
`n ≥ 1` construction succeeds and the depth-0 level is exactly the powers
of two up to `n` together with `n` itself (non-empty). -/
theorem claim_C10 :
    buildLevels 0 = none ∧
    (∀ k, initPLN 0 k = none) ∧
    (∀ n, 1 ≤ n → ∃ ls, buildLevels n = some ls ∧ ls ≠ [] ∧
      (∀ x, x ∈ ls.headD [] ↔ ((∃ t, x = 2 ^ t ∧ x ≤ n) ∨ x = n))) :=
  ⟨buildLevels_zero, initPLN_zero, buildLevels_pos⟩

/-- Witness for C10 at `n = 2`. -/
theorem claim_C10_witness :
    ∃ ls, buildLevels 2 = some ls ∧ ls ≠ [] ∧
      (∀ x, x ∈ ls.headD [] ↔ ((∃ t, x = 2 ^ t ∧ x ≤ 2) ∨ x = 2)) :=
  claim_C10.2.2 2 (by norm_num)
